import Mathlib

/-!
Verification of the first-order formula parser (`src/first_order/parser.rs`).

The repository ships one source file, `parser.rs`, which wires a grammar
engine (the `bnf` crate) to an AST conversion (`Formula::parse_input`,
defined in `formula.rs`, which is not part of the shipped sources):

* `Parser::new()` compiles the embedded grammar text, with the context
  message "Couldn't parse grammar" on failure.
* `Parser::with_parse_tree(formula, f)` builds a parser from the compiled
  grammar ("Couldn't build parser" on failure), takes the first element of
  the derivation iterator for the input ("Grammar could not parse input:
  {input}" when there is none), and returns `Ok(f(&tree))`.
* `Parser::parse(formula)` is `with_parse_tree(formula, Formula::parse_input)?`,
  flattening the nested `Result`.

The embedding below has two layers. The first is a faithful translation of
`parser.rs`, parameterised over the behaviour of the grammar engine (a
compilation flag, a parser-construction flag and the per-input derivation
sequence) and over the AST conversion. The second layer instantiates the
engine with a concrete model of the shipped grammar, reconstructed from
the specification, since `grammar.bnf` and `formula.rs` are not under the
shipped sources.
-/

namespace FOProver

/-- First-order terms. The shipped grammar's surface syntax uses only
named variables (`Var "x"`). -/
inductive Term where
  | var : String → Term
deriving DecidableEq, Repr

/-- The typed formula AST built by the AST conversion: truth constants,
relations over terms, binary connectives and quantifiers. The spec leaves
a unary negation connective unconfirmed, so it is not modelled. -/
inductive Formula where
  | tru : Formula
  | fls : Formula
  | rel : String → List Term → Formula
  | and : Formula → Formula → Formula
  | or : Formula → Formula → Formula
  | implies : Formula → Formula → Formula
  | exists_ : String → Formula → Formula
  | forall_ : String → Formula → Formula
deriving DecidableEq, Repr

/-- The error taxonomy of the pipeline, mirroring the `anyhow` context
messages attached in `parser.rs` and the conversion errors produced by
`Formula::parse_input`. -/
inductive PError where
  | grammarCompile : PError
  | parserBuild : PError
  | inputParse : String → PError
  | conversion : String → PError
deriving DecidableEq, Repr

/-- The rendered context message of each error, as `parser.rs` formats it. -/
def PError.message : PError → String
  | .grammarCompile => "Couldn't parse grammar"
  | .parserBuild => "Couldn't build parser"
  | .inputParse s => "Grammar could not parse input: " ++ s
  | .conversion m => m

/-- Abstract behaviour of the grammar engine (the `bnf` crate as used by
`parser.rs`): whether the grammar text compiles, whether per-input parser
construction succeeds, and the sequence of derivations the matching
process iterates for each input, in iteration order. `τ` is the parse
tree type. -/
structure Engine (τ : Type) where
  compileOk : Bool
  buildOk : Bool
  derivations : String → List τ

/-- `Parser` from `parser.rs`: it owns exactly the compiled grammar. -/
structure Parser (τ : Type) where
  grammar : Engine τ

/-- `Parser::new()`: compile the embedded grammar text, with the context
message "Couldn't parse grammar" on failure. -/
def Parser.new {τ : Type} (e : Engine τ) : Except PError (Parser τ) :=
  match e.compileOk with
  | true => .ok ⟨e⟩
  | false => .error .grammarCompile

/-- `Parser::with_parse_tree`: build a parser from the compiled grammar,
take the first parse tree of the derivation iterator for `formula`, and
return `Ok` of the callback's result. -/
def Parser.with_parse_tree {τ ρ : Type} (p : Parser τ) (formula : String)
    (f : τ → ρ) : Except PError ρ :=
  match p.grammar.buildOk with
  | false => .error .parserBuild
  | true =>
    match (p.grammar.derivations formula).head? with
    | none => .error (.inputParse formula)
    | some t => .ok (f t)

/-- `Parser::parse`: run `with_parse_tree` with the AST conversion as the
callback and flatten the nested `Result` with `?`. The conversion
`Formula::parse_input` lives in `formula.rs` (not shipped), so it is a
parameter `conv`. -/
def Parser.parse {τ : Type} (p : Parser τ) (conv : τ → Except PError Formula)
    (s : String) : Except PError Formula :=
  match p.with_parse_tree s conv with
  | .error e => .error e
  | .ok r => r

/-- `with_parse_tree` modelled as a state-passing call: the method takes
`&self`, so the parser value after the call is the parser value before it. -/
def Parser.with_parse_tree_call {τ ρ : Type} (p : Parser τ) (s : String)
    (f : τ → ρ) : Except PError ρ × Parser τ :=
  (p.with_parse_tree s f, p)

/-- `parse` modelled as a state-passing call: the method takes `&self`,
so the parser value after the call is the parser value before it. -/
def Parser.parse_call {τ : Type} (p : Parser τ)
    (conv : τ → Except PError Formula) (s : String) :
    Except PError Formula × Parser τ :=
  (p.parse conv s, p)

/-! ### Concrete model of the shipped grammar

`grammar.bnf` and `formula.rs` are referenced by `parser.rs` but are not
among the shipped sources, so the concrete derivation-and-conversion
pipeline is modelled from the specification's surface syntax:
`T`, `F`, `And (φ) (ψ)`, `Or (φ) (ψ)`, `Implies (φ) (ψ)`,
`Exists "x" (φ)`, `Forall "x" (φ)`, `Rel "D" [Var "x"]`, with quoted
alphanumeric names and comma-separated term lists. -/

/-- Matches a literal character sequence at the head of the input,
returning the rest. -/
def matchLit : List Char → List Char → Option (List Char)
  | [], cs => some cs
  | _ :: _, [] => none
  | p :: ps, c :: cs => if c = p then matchLit ps cs else none

/-- Reads alphanumeric characters up to a closing quote (the opening quote
has already been consumed); returns the name and the rest after the
closing quote. -/
def parseNameAux : List Char → Option (List Char × List Char)
  | [] => none
  | c :: cs =>
    if c = '"' then some ([], cs)
    else if c.isAlphanum then
      match parseNameAux cs with
      | none => none
      | some (nm, r) => some (c :: nm, r)
    else none

/-- The literal `Var "` opening a term. -/
def kwVar : List Char := ['V', 'a', 'r', ' ', '"']

/-- Parses one term: `Var "name"`. -/
def parseTerm (cs : List Char) : Option (Term × List Char) :=
  match matchLit kwVar cs with
  | none => none
  | some cs =>
    match parseNameAux cs with
    | none => none
    | some (nm, r) => some (.var (String.mk nm), r)

/-- Parses a non-empty comma-separated term list followed by the closing
bracket, consuming it. -/
def parseTermsAux : Nat → List Char → Option (List Term × List Char)
  | 0, _ => none
  | fuel + 1, cs =>
    match parseTerm cs with
    | none => none
    | some (t, cs) =>
      match cs with
      | [] => none
      | c :: cs =>
        if c = ']' then some ([t], cs)
        else if c = ',' then
          match parseTermsAux fuel cs with
          | none => none
          | some (ts, r) => some (t :: ts, r)
        else none

/-- The keyword openings of the formula productions, as character lists. -/
def kwAnd : List Char := ['A', 'n', 'd', ' ', '(']

/-- The literal `Or (`. -/
def kwOr : List Char := ['O', 'r', ' ', '(']

/-- The literal `Implies (`. -/
def kwImplies : List Char := ['I', 'm', 'p', 'l', 'i', 'e', 's', ' ', '(']

/-- The literal `Rel "`. -/
def kwRel : List Char := ['R', 'e', 'l', ' ', '"']

/-- The literal `Exists "`. -/
def kwExists : List Char := ['E', 'x', 'i', 's', 't', 's', ' ', '"']

/-- The literal `Forall "`. -/
def kwForall : List Char := ['F', 'o', 'r', 'a', 'l', 'l', ' ', '"']

/-- The literal `) (` separating the operands of a binary connective. -/
def kwSep : List Char := [')', ' ', '(']

/-- The literal ` (` between a quantifier's bound name and its body. -/
def kwBody : List Char := [' ', '(']

/-- The literal ` [` between a relation's name and its term list. -/
def kwBrk : List Char := [' ', '[']

/-- Parses the tail of a binary connective after its keyword and opening
parenthesis: `φ) (ψ)`. -/
def parseBin (k : Formula → Formula → Formula)
    (rec : List Char → Option (Formula × List Char)) (cs : List Char) :
    Option (Formula × List Char) :=
  match rec cs with
  | none => none
  | some (l, cs) =>
    match matchLit kwSep cs with
    | none => none
    | some cs =>
      match rec cs with
      | none => none
      | some (r, cs) =>
        match cs with
        | [] => none
        | c :: rest => if c = ')' then some (k l r, rest) else none

/-- Parses the tail of a quantifier after its keyword and opening quote:
`name" (φ)`. -/
def parseQuant (k : String → Formula → Formula)
    (rec : List Char → Option (Formula × List Char)) (cs : List Char) :
    Option (Formula × List Char) :=
  match parseNameAux cs with
  | none => none
  | some (v, cs) =>
    match matchLit kwBody cs with
    | none => none
    | some cs =>
      match rec cs with
      | none => none
      | some (b, cs) =>
        match cs with
        | [] => none
        | c :: rest => if c = ')' then some (k (String.mk v) b, rest) else none

/-- Parses the tail of a relation after `Rel "`: `name" [terms]`, where
the term list may be empty. -/
def parseRel (cs : List Char) : Option (Formula × List Char) :=
  match parseNameAux cs with
  | none => none
  | some (n, cs) =>
    match matchLit kwBrk cs with
    | none => none
    | some cs =>
      match cs with
      | [] => none
      | c :: rest =>
        if c = ']' then some (.rel (String.mk n) [], rest)
        else
          match parseTermsAux (c :: rest).length (c :: rest) with
          | none => none
          | some (ts, rest2) => some (.rel (String.mk n) ts, rest2)

/-- Modelled from the spec: the derivation of one formula from the head
of the input, with the productions of the missing `grammar.bnf` and the
AST construction of the missing `Formula::parse_input` merged into one
recursive descent over the spec's surface syntax. Keywords are tried in a
fixed order, with `Forall` before the bare constant `F`; the grammar is
keyword-delimited, so each input has at most one derivation. The fuel
argument bounds the recursion depth; every recursive call follows the
consumption of a keyword, so any fuel above the input length is enough. -/
def parseF : Nat → List Char → Option (Formula × List Char)
  | 0, _ => none
  | fuel + 1, cs =>
    match matchLit kwAnd cs with
    | some cs => parseBin .and (parseF fuel) cs
    | none =>
    match matchLit kwOr cs with
    | some cs => parseBin .or (parseF fuel) cs
    | none =>
    match matchLit kwImplies cs with
    | some cs => parseBin .implies (parseF fuel) cs
    | none =>
    match matchLit kwRel cs with
    | some cs => parseRel cs
    | none =>
    match matchLit kwExists cs with
    | some cs => parseQuant .exists_ (parseF fuel) cs
    | none =>
    match matchLit kwForall cs with
    | some cs => parseQuant .forall_ (parseF fuel) cs
    | none =>
    match cs with
    | [] => none
    | c :: rest =>
      if c = 'T' then some (.tru, rest)
      else if c = 'F' then some (.fls, rest)
      else none

/-- Modelled from the spec: the derivation sequence of the shipped
grammar for a whole input — the single full-input derivation when the
recursive descent consumes the entire string, and no derivation
otherwise. -/
def foDerivations (s : String) : List Formula :=
  match parseF (s.data.length + 1) s.data with
  | some (φ, []) => [φ]
  | some (_, _ :: _) => []
  | none => []

/-- Modelled from the spec: the behaviour of the shipped engine.
`grammar.bnf` is not among the shipped sources; per the specification the
embedded grammar text always compiles and per-input parser construction
succeeds, and the derivations are those of the modelled grammar. -/
def foEngine : Engine Formula := ⟨true, true, foDerivations⟩

/-- The parser over the modelled shipped engine. In this concrete model a
parse tree is already identified with the formula it converts to, so the
AST conversion is the identity. -/
def foParser : Parser Formula := ⟨foEngine⟩

/-- `Parser::parse` over the modelled shipped engine. -/
def parseFO (s : String) : Except PError Formula :=
  foParser.parse (fun φ => .ok φ) s

/-- Canonical surface syntax of a term. -/
def printTerm : Term → List Char
  | .var n => kwVar ++ n.data ++ ['"']

/-- Canonical surface syntax of a comma-separated term list (without the
surrounding brackets). -/
def printTerms : List Term → List Char
  | [] => []
  | [t] => printTerm t
  | t :: t2 :: ts => printTerm t ++ ',' :: printTerms (t2 :: ts)

/-- Canonical surface syntax of a formula: the unique string the modelled
grammar derives to that formula. -/
def printF : Formula → List Char
  | .tru => ['T']
  | .fls => ['F']
  | .rel n ts => kwRel ++ (n.data ++ '"' :: (kwBrk ++ (printTerms ts ++ [']'])))
  | .and l r => kwAnd ++ (printF l ++ (kwSep ++ (printF r ++ [')'])))
  | .or l r => kwOr ++ (printF l ++ (kwSep ++ (printF r ++ [')'])))
  | .implies l r => kwImplies ++ (printF l ++ (kwSep ++ (printF r ++ [')'])))
  | .exists_ v b => kwExists ++ (v.data ++ '"' :: (kwBody ++ (printF b ++ [')'])))
  | .forall_ v b => kwForall ++ (v.data ++ '"' :: (kwBody ++ (printF b ++ [')'])))

/-- Every character of the term's name is alphanumeric. -/
def namesOkT : Term → Bool
  | .var n => n.data.all Char.isAlphanum

/-- Every name occurring in the formula is alphanumeric, as the grammar's
quoted-name production guarantees. -/
def namesOk : Formula → Bool
  | .tru => true
  | .fls => true
  | .rel n ts => n.data.all Char.isAlphanum && ts.all namesOkT
  | .and l r => namesOk l && namesOk r
  | .or l r => namesOk l && namesOk r
  | .implies l r => namesOk l && namesOk r
  | .exists_ v b => v.data.all Char.isAlphanum && namesOk b
  | .forall_ v b => v.data.all Char.isAlphanum && namesOk b

/-- Runs a parenthesis counter over the characters, failing on a closing
parenthesis with no matching opening one. -/
def balancedAux : List Char → Nat → Bool
  | [], d => d == 0
  | c :: cs, d =>
    if c = '(' then balancedAux cs (d + 1)
    else if c = ')' then
      match d with
      | 0 => false
      | d + 1 => balancedAux cs d
    else balancedAux cs d

/-- The string's parentheses are balanced. -/
def balanced (s : String) : Bool := balancedAux s.data 0

/-! ### Helper lemmas about the modelled grammar -/

theorem matchLit_some : ∀ (k cs r : List Char), matchLit k cs = some r → cs = k ++ r := by
  intro k
  induction k with
  | nil =>
    intro cs r h
    simp only [matchLit, Option.some.injEq] at h
    simp [h]
  | cons p ps ih =>
    intro cs r h
    cases cs with
    | nil => exact Option.noConfusion h
    | cons c cs =>
      simp only [matchLit] at h
      by_cases hc : c = p
      · rw [if_pos hc] at h
        subst hc
        simp [ih cs r h]
      · rw [if_neg hc] at h
        exact Option.noConfusion h

theorem matchLit_self : ∀ (k r : List Char), matchLit k (k ++ r) = some r := by
  intro k
  induction k with
  | nil => intro r; rfl
  | cons p ps ih => intro r; simp [matchLit, ih]

theorem matchLit_append (k cs r zs : List Char) (h : matchLit k cs = some r) :
    matchLit k (cs ++ zs) = some (r ++ zs) := by
  rw [matchLit_some k cs r h, List.append_assoc]
  exact matchLit_self k (r ++ zs)

theorem matchLit_none_append : ∀ (k cs zs : List Char),
    (∀ c ∈ k, c ≠ ')') → (zs = [] ∨ ∃ t, zs = ')' :: t) →
    matchLit k cs = none → matchLit k (cs ++ zs) = none := by
  intro k
  induction k with
  | nil => intro cs zs hk hz h; exact Option.noConfusion h
  | cons p ps ih =>
    intro cs zs hk hz h
    cases cs with
    | nil =>
      rcases hz with rfl | ⟨t, rfl⟩
      · simpa using h
      · have hp : (')' : Char) ≠ p := fun hpe => hk p (by simp) hpe.symm
        simp only [List.nil_append, matchLit]
        rw [if_neg hp]
    | cons c cs =>
      simp only [matchLit] at h
      simp only [List.cons_append, matchLit]
      by_cases hc : c = p
      · rw [if_pos hc] at h ⊢
        exact ih cs zs (fun c hm => hk c (List.mem_cons_of_mem _ hm)) hz h
      · rw [if_neg hc]

theorem parseNameAux_sound : ∀ (cs : List Char) (nm r : List Char),
    parseNameAux cs = some (nm, r) →
    cs = nm ++ '"' :: r ∧ nm.all Char.isAlphanum = true := by
  intro cs
  induction cs with
  | nil => intro nm r h; exact Option.noConfusion h
  | cons c cs ih =>
    intro nm r h
    simp only [parseNameAux] at h
    by_cases hq : c = '"'
    · rw [if_pos hq] at h
      simp only [Option.some.injEq, Prod.mk.injEq] at h
      obtain ⟨h1, h2⟩ := h
      subst h1; subst h2; subst hq
      simp
    · rw [if_neg hq] at h
      by_cases ha : c.isAlphanum
      · rw [if_pos ha] at h
        cases hrec : parseNameAux cs with
        | none => rw [hrec] at h; exact Option.noConfusion h
        | some pr =>
          obtain ⟨nm0, r0⟩ := pr
          rw [hrec] at h
          simp only [Option.some.injEq, Prod.mk.injEq] at h
          obtain ⟨h1, h2⟩ := h
          subst h2
          obtain ⟨hcs, hall⟩ := ih nm0 r0 hrec
          subst hcs
          subst h1
          refine ⟨by simp, ?_⟩
          simp [List.all_cons, ha, hall]
      · rw [if_neg ha] at h; exact Option.noConfusion h

theorem parseNameAux_append : ∀ (cs : List Char) (nm r zs : List Char),
    parseNameAux cs = some (nm, r) →
    parseNameAux (cs ++ zs) = some (nm, r ++ zs) := by
  intro cs
  induction cs with
  | nil => intro nm r zs h; exact Option.noConfusion h
  | cons c cs ih =>
    intro nm r zs h
    simp only [parseNameAux] at h
    simp only [List.cons_append, parseNameAux, List.append_eq]
    by_cases hq : c = '"'
    · rw [if_pos hq] at h ⊢
      simp only [Option.some.injEq, Prod.mk.injEq] at h
      obtain ⟨h1, h2⟩ := h
      subst h1; subst h2
      rfl
    · rw [if_neg hq] at h ⊢
      by_cases ha : c.isAlphanum
      · rw [if_pos ha] at h ⊢
        cases hrec : parseNameAux cs with
        | none => rw [hrec] at h; exact Option.noConfusion h
        | some pr =>
          obtain ⟨nm0, r0⟩ := pr
          rw [hrec] at h
          simp only [Option.some.injEq, Prod.mk.injEq] at h
          obtain ⟨h1, h2⟩ := h
          subst h2
          rw [ih nm0 r0 zs hrec]
          simp [h1]
      · rw [if_neg ha] at h; exact Option.noConfusion h

theorem parseTerm_sound (cs : List Char) (t : Term) (r : List Char)
    (h : parseTerm cs = some (t, r)) :
    cs = printTerm t ++ r ∧ namesOkT t = true := by
  simp only [parseTerm] at h
  cases h1 : matchLit kwVar cs with
  | none => simp [h1] at h
  | some cs1 =>
    simp only [h1] at h
    cases h2 : parseNameAux cs1 with
    | none => simp [h2] at h
    | some pr =>
      obtain ⟨nm, r0⟩ := pr
      simp only [h2, Option.some.injEq, Prod.mk.injEq] at h
      obtain ⟨h3, h4⟩ := h
      subst h4
      obtain ⟨hcs1, hall⟩ := parseNameAux_sound cs1 nm r0 h2
      subst hcs1
      rw [matchLit_some kwVar cs _ h1]
      subst h3
      constructor
      · simp [printTerm]
      · simpa [namesOkT] using hall

theorem parseTerm_append (cs : List Char) (t : Term) (r zs : List Char)
    (h : parseTerm cs = some (t, r)) :
    parseTerm (cs ++ zs) = some (t, r ++ zs) := by
  simp only [parseTerm] at h ⊢
  cases h1 : matchLit kwVar cs with
  | none => simp [h1] at h
  | some cs1 =>
    simp only [h1] at h
    simp only [matchLit_append kwVar cs cs1 zs h1]
    cases h2 : parseNameAux cs1 with
    | none => simp [h2] at h
    | some pr =>
      obtain ⟨nm, r0⟩ := pr
      simp only [h2, Option.some.injEq, Prod.mk.injEq] at h
      obtain ⟨h3, h4⟩ := h
      subst h4
      simp only [parseNameAux_append cs1 nm r0 zs h2]
      simp [h3]

theorem parseTermsAux_sound : ∀ (fuel : Nat) (cs : List Char) (ts : List Term) (r : List Char),
    parseTermsAux fuel cs = some (ts, r) →
    cs = printTerms ts ++ ']' :: r ∧ ts.all namesOkT = true ∧ ts ≠ [] := by
  intro fuel
  induction fuel with
  | zero => intro cs ts r h; exact Option.noConfusion h
  | succ fuel ih =>
    intro cs ts r h
    simp only [parseTermsAux] at h
    cases h1 : parseTerm cs with
    | none => simp [h1] at h
    | some pr =>
      obtain ⟨t, cs1⟩ := pr
      simp only [h1] at h
      cases cs1 with
      | nil => simp at h
      | cons c cs2 =>
        simp only [] at h
        obtain ⟨hcs, hok⟩ := parseTerm_sound cs t (c :: cs2) h1
        by_cases hc : c = ']'
        · rw [if_pos hc] at h
          simp only [Option.some.injEq, Prod.mk.injEq] at h
          obtain ⟨h2, h3⟩ := h
          subst h2; subst h3; subst hc
          refine ⟨?_, by simp [hok], by simp⟩
          simpa [printTerms] using hcs
        · rw [if_neg hc] at h
          by_cases hc2 : c = ','
          · rw [if_pos hc2] at h
            cases h4 : parseTermsAux fuel cs2 with
            | none => simp [h4] at h
            | some pr2 =>
              obtain ⟨ts0, r0⟩ := pr2
              simp only [h4, Option.some.injEq, Prod.mk.injEq] at h
              obtain ⟨h5, h6⟩ := h
              subst h6
              obtain ⟨hcs2, hall0, hne⟩ := ih cs2 ts0 r0 h4
              subst h5
              subst hc2
              refine ⟨?_, by simp [hok, hall0], by simp⟩
              cases ts0 with
              | nil => exact absurd rfl hne
              | cons t2 ts2 =>
                rw [hcs, hcs2]
                simp [printTerms, List.append_assoc]
          · rw [if_neg hc2] at h; exact Option.noConfusion h

theorem parseTermsAux_extmono : ∀ (fuel : Nat) (cs : List Char) (ts : List Term)
    (r : List Char) (fuel2 : Nat) (zs : List Char),
    parseTermsAux fuel cs = some (ts, r) → fuel ≤ fuel2 →
    parseTermsAux fuel2 (cs ++ zs) = some (ts, r ++ zs) := by
  intro fuel
  induction fuel with
  | zero => intro cs ts r fuel2 zs h; exact absurd h (by simp [parseTermsAux])
  | succ fuel ih =>
    intro cs ts r fuel2 zs h hle
    obtain ⟨f2, rfl⟩ : ∃ f2, fuel2 = f2 + 1 := ⟨fuel2 - 1, by omega⟩
    have hle2 : fuel ≤ f2 := by omega
    simp only [parseTermsAux] at h ⊢
    cases h1 : parseTerm cs with
    | none => simp [h1] at h
    | some pr =>
      obtain ⟨t, cs1⟩ := pr
      simp only [h1] at h
      simp only [parseTerm_append cs t cs1 zs h1]
      cases cs1 with
      | nil => simp at h
      | cons c cs2 =>
        simp only [List.cons_append]
        simp only [] at h ⊢
        by_cases hc : c = ']'
        · rw [if_pos hc] at h ⊢
          simp only [Option.some.injEq, Prod.mk.injEq] at h
          obtain ⟨h2, h3⟩ := h
          subst h2; subst h3
          rfl
        · rw [if_neg hc] at h ⊢
          by_cases hc2 : c = ','
          · rw [if_pos hc2] at h ⊢
            cases h4 : parseTermsAux fuel cs2 with
            | none => simp [h4] at h
            | some pr2 =>
              obtain ⟨ts0, r0⟩ := pr2
              simp only [h4, Option.some.injEq, Prod.mk.injEq] at h
              obtain ⟨h5, h6⟩ := h
              subst h5; subst h6
              simp only [ih cs2 ts0 r0 f2 zs h4 hle2]
          · rw [if_neg hc2] at h; exact Option.noConfusion h

theorem parseRel_sound (cs : List Char) (φ : Formula) (r : List Char)
    (h : parseRel cs = some (φ, r)) :
    namesOk φ = true ∧ kwRel ++ cs = printF φ ++ r := by
  simp only [parseRel] at h
  cases h1 : parseNameAux cs with
  | none => simp [h1] at h
  | some pr =>
    obtain ⟨n, cs1⟩ := pr
    simp only [h1] at h
    cases h2 : matchLit kwBrk cs1 with
    | none => simp [h2] at h
    | some cs2 =>
      simp only [h2] at h
      obtain ⟨hcs, hall⟩ := parseNameAux_sound cs n cs1 h1
      cases cs2 with
      | nil => simp at h
      | cons c cs3 =>
        simp only [] at h
        by_cases hc : c = ']'
        · rw [if_pos hc] at h
          simp only [Option.some.injEq, Prod.mk.injEq] at h
          obtain ⟨h3, h4⟩ := h
          subst h3; subst h4; subst hc
          constructor
          · simpa [namesOk] using hall
          · rw [hcs, matchLit_some kwBrk cs1 _ h2]
            simp [printF, printTerms, List.append_assoc]
        · rw [if_neg hc] at h
          simp only [List.length_cons] at h
          cases h4 : parseTermsAux (cs3.length + 1) (c :: cs3) with
          | none => simp [h4] at h
          | some pr2 =>
            obtain ⟨ts, r2⟩ := pr2
            simp only [h4, Option.some.injEq, Prod.mk.injEq] at h
            obtain ⟨h5, h6⟩ := h
            subst h5; subst h6
            obtain ⟨hcs2, hts, hne⟩ := parseTermsAux_sound _ _ _ _ h4
            constructor
            · simp [namesOk, hall, hts]
            · rw [hcs, matchLit_some kwBrk cs1 _ h2, hcs2]
              simp [printF, List.append_assoc]

theorem parseRel_ext (cs : List Char) (φ : Formula) (r zs : List Char)
    (h : parseRel cs = some (φ, r)) :
    parseRel (cs ++ zs) = some (φ, r ++ zs) := by
  simp only [parseRel] at h ⊢
  cases h1 : parseNameAux cs with
  | none => simp [h1] at h
  | some pr =>
    obtain ⟨n, cs1⟩ := pr
    simp only [h1] at h
    simp only [parseNameAux_append cs n cs1 zs h1]
    cases h2 : matchLit kwBrk cs1 with
    | none => simp [h2] at h
    | some cs2 =>
      simp only [h2] at h
      simp only [matchLit_append kwBrk cs1 cs2 zs h2]
      cases cs2 with
      | nil => simp at h
      | cons c cs3 =>
        simp only [List.cons_append]
        simp only [] at h ⊢
        by_cases hc : c = ']'
        · rw [if_pos hc] at h ⊢
          simp only [Option.some.injEq, Prod.mk.injEq] at h
          obtain ⟨h3, h4⟩ := h
          subst h3; subst h4
          rfl
        · rw [if_neg hc] at h ⊢
          simp only [List.length_cons] at h ⊢
          cases h4 : parseTermsAux (cs3.length + 1) (c :: cs3) with
          | none => simp [h4] at h
          | some pr2 =>
            obtain ⟨ts, r2⟩ := pr2
            simp only [h4, Option.some.injEq, Prod.mk.injEq] at h
            obtain ⟨h5, h6⟩ := h
            subst h5; subst h6
            have hext := parseTermsAux_extmono (cs3.length + 1) (c :: cs3) ts r2
              ((cs3 ++ zs).length + 1) zs h4
              (by rw [List.length_append]; omega)
            simp only [List.cons_append] at hext
            simp only [hext]

theorem parseBin_sound (k : Formula → Formula → Formula)
    (rec : List Char → Option (Formula × List Char))
    (hrec : ∀ cs φ r, rec cs = some (φ, r) → cs = printF φ ++ r ∧ namesOk φ = true)
    (cs : List Char) (φ : Formula) (r : List Char)
    (h : parseBin k rec cs = some (φ, r)) :
    ∃ l rr, φ = k l rr ∧ namesOk l = true ∧ namesOk rr = true
      ∧ cs = printF l ++ (kwSep ++ (printF rr ++ ')' :: r)) := by
  simp only [parseBin] at h
  cases h1 : rec cs with
  | none => simp [h1] at h
  | some pr =>
    obtain ⟨l, cs1⟩ := pr
    simp only [h1] at h
    cases h2 : matchLit kwSep cs1 with
    | none => simp [h2] at h
    | some cs2 =>
      simp only [h2] at h
      cases h3 : rec cs2 with
      | none => simp [h3] at h
      | some pr2 =>
        obtain ⟨rr, cs3⟩ := pr2
        simp only [h3] at h
        cases cs3 with
        | nil => simp at h
        | cons c rest =>
          simp only [] at h
          by_cases hc : c = ')'
          · rw [if_pos hc] at h
            simp only [Option.some.injEq, Prod.mk.injEq] at h
            obtain ⟨h4, h5⟩ := h
            subst h4; subst h5; subst hc
            obtain ⟨hcs1, hl⟩ := hrec cs l cs1 h1
            obtain ⟨hcs2, hr⟩ := hrec cs2 rr _ h3
            refine ⟨l, rr, rfl, hl, hr, ?_⟩
            rw [hcs1, matchLit_some kwSep cs1 _ h2, hcs2]
          · rw [if_neg hc] at h; exact Option.noConfusion h

theorem parseBin_ext (k : Formula → Formula → Formula)
    (rec rec2 : List Char → Option (Formula × List Char)) (zs : List Char)
    (hrec : ∀ cs φ r, rec cs = some (φ, r) → rec2 (cs ++ zs) = some (φ, r ++ zs))
    (cs : List Char) (φ : Formula) (r : List Char)
    (h : parseBin k rec cs = some (φ, r)) :
    parseBin k rec2 (cs ++ zs) = some (φ, r ++ zs) := by
  simp only [parseBin] at h ⊢
  cases h1 : rec cs with
  | none => simp [h1] at h
  | some pr =>
    obtain ⟨l, cs1⟩ := pr
    simp only [h1] at h
    simp only [hrec cs l cs1 h1]
    cases h2 : matchLit kwSep cs1 with
    | none => simp [h2] at h
    | some cs2 =>
      simp only [h2] at h
      simp only [matchLit_append kwSep cs1 cs2 zs h2]
      cases h3 : rec cs2 with
      | none => simp [h3] at h
      | some pr2 =>
        obtain ⟨rr, cs3⟩ := pr2
        simp only [h3] at h
        simp only [hrec cs2 rr cs3 h3]
        cases cs3 with
        | nil => simp at h
        | cons c rest =>
          simp only [List.cons_append]
          simp only [] at h
          by_cases hc : c = ')'
          · rw [if_pos hc] at h ⊢
            simp only [Option.some.injEq, Prod.mk.injEq] at h
            obtain ⟨h4, h5⟩ := h
            subst h4; subst h5
            rfl
          · rw [if_neg hc] at h; exact Option.noConfusion h

theorem parseQuant_sound (k : String → Formula → Formula)
    (rec : List Char → Option (Formula × List Char))
    (hrec : ∀ cs φ r, rec cs = some (φ, r) → cs = printF φ ++ r ∧ namesOk φ = true)
    (cs : List Char) (φ : Formula) (r : List Char)
    (h : parseQuant k rec cs = some (φ, r)) :
    ∃ v b, φ = k (String.mk v) b ∧ v.all Char.isAlphanum = true ∧ namesOk b = true
      ∧ cs = v ++ '"' :: (kwBody ++ (printF b ++ ')' :: r)) := by
  simp only [parseQuant] at h
  cases h1 : parseNameAux cs with
  | none => simp [h1] at h
  | some pr =>
    obtain ⟨v, cs1⟩ := pr
    simp only [h1] at h
    cases h2 : matchLit kwBody cs1 with
    | none => simp [h2] at h
    | some cs2 =>
      simp only [h2] at h
      cases h3 : rec cs2 with
      | none => simp [h3] at h
      | some pr2 =>
        obtain ⟨b, cs3⟩ := pr2
        simp only [h3] at h
        cases cs3 with
        | nil => simp at h
        | cons c rest =>
          simp only [] at h
          by_cases hc : c = ')'
          · rw [if_pos hc] at h
            simp only [Option.some.injEq, Prod.mk.injEq] at h
            obtain ⟨h4, h5⟩ := h
            subst h4; subst h5; subst hc
            obtain ⟨hcs, hv⟩ := parseNameAux_sound cs v cs1 h1
            obtain ⟨hcs2, hb⟩ := hrec cs2 b _ h3
            refine ⟨v, b, rfl, hv, hb, ?_⟩
            rw [hcs, matchLit_some kwBody cs1 _ h2, hcs2]
          · rw [if_neg hc] at h; exact Option.noConfusion h

theorem parseQuant_ext (k : String → Formula → Formula)
    (rec rec2 : List Char → Option (Formula × List Char)) (zs : List Char)
    (hrec : ∀ cs φ r, rec cs = some (φ, r) → rec2 (cs ++ zs) = some (φ, r ++ zs))
    (cs : List Char) (φ : Formula) (r : List Char)
    (h : parseQuant k rec cs = some (φ, r)) :
    parseQuant k rec2 (cs ++ zs) = some (φ, r ++ zs) := by
  simp only [parseQuant] at h ⊢
  cases h1 : parseNameAux cs with
  | none => simp [h1] at h
  | some pr =>
    obtain ⟨v, cs1⟩ := pr
    simp only [h1] at h
    simp only [parseNameAux_append cs v cs1 zs h1]
    cases h2 : matchLit kwBody cs1 with
    | none => simp [h2] at h
    | some cs2 =>
      simp only [h2] at h
      simp only [matchLit_append kwBody cs1 cs2 zs h2]
      cases h3 : rec cs2 with
      | none => simp [h3] at h
      | some pr2 =>
        obtain ⟨b, cs3⟩ := pr2
        simp only [h3] at h
        simp only [hrec cs2 b cs3 h3]
        cases cs3 with
        | nil => simp at h
        | cons c rest =>
          simp only [List.cons_append]
          simp only [] at h
          by_cases hc : c = ')'
          · rw [if_pos hc] at h ⊢
            simp only [Option.some.injEq, Prod.mk.injEq] at h
            obtain ⟨h4, h5⟩ := h
            subst h4; subst h5
            rfl
          · rw [if_neg hc] at h; exact Option.noConfusion h

theorem parseF_sound : ∀ (fuel : Nat) (cs : List Char) (φ : Formula) (r : List Char),
    parseF fuel cs = some (φ, r) → cs = printF φ ++ r ∧ namesOk φ = true := by
  intro fuel
  induction fuel with
  | zero => intro cs φ r h; exact Option.noConfusion h
  | succ fuel ih =>
    intro cs φ r h
    simp only [parseF] at h
    cases hA : matchLit kwAnd cs with
    | some cs1 =>
      simp only [hA] at h
      obtain ⟨l, rr, rfl, hl, hr, hcs1⟩ :=
        parseBin_sound Formula.and (parseF fuel) (ih) cs1 φ r h
      refine ⟨?_, by simp [namesOk, hl, hr]⟩
      rw [matchLit_some kwAnd cs cs1 hA, hcs1]
      simp [printF, List.append_assoc]
    | none =>
    simp only [hA] at h
    cases hO : matchLit kwOr cs with
    | some cs1 =>
      simp only [hO] at h
      obtain ⟨l, rr, rfl, hl, hr, hcs1⟩ :=
        parseBin_sound Formula.or (parseF fuel) (ih) cs1 φ r h
      refine ⟨?_, by simp [namesOk, hl, hr]⟩
      rw [matchLit_some kwOr cs cs1 hO, hcs1]
      simp [printF, List.append_assoc]
    | none =>
    simp only [hO] at h
    cases hI : matchLit kwImplies cs with
    | some cs1 =>
      simp only [hI] at h
      obtain ⟨l, rr, rfl, hl, hr, hcs1⟩ :=
        parseBin_sound Formula.implies (parseF fuel) (ih) cs1 φ r h
      refine ⟨?_, by simp [namesOk, hl, hr]⟩
      rw [matchLit_some kwImplies cs cs1 hI, hcs1]
      simp [printF, List.append_assoc]
    | none =>
    simp only [hI] at h
    cases hR : matchLit kwRel cs with
    | some cs1 =>
      simp only [hR] at h
      obtain ⟨hok, hcs1⟩ := parseRel_sound cs1 φ r h
      refine ⟨?_, hok⟩
      rw [matchLit_some kwRel cs cs1 hR]
      exact hcs1
    | none =>
    simp only [hR] at h
    cases hE : matchLit kwExists cs with
    | some cs1 =>
      simp only [hE] at h
      obtain ⟨v, b, rfl, hv, hb, hcs1⟩ :=
        parseQuant_sound Formula.exists_ (parseF fuel) (ih) cs1 φ r h
      refine ⟨?_, by simp [namesOk, hv, hb]⟩
      rw [matchLit_some kwExists cs cs1 hE, hcs1]
      simp [printF, List.append_assoc]
    | none =>
    simp only [hE] at h
    cases hFa : matchLit kwForall cs with
    | some cs1 =>
      simp only [hFa] at h
      obtain ⟨v, b, rfl, hv, hb, hcs1⟩ :=
        parseQuant_sound Formula.forall_ (parseF fuel) (ih) cs1 φ r h
      refine ⟨?_, by simp [namesOk, hv, hb]⟩
      rw [matchLit_some kwForall cs cs1 hFa, hcs1]
      simp [printF, List.append_assoc]
    | none =>
    simp only [hFa] at h
    cases cs with
    | nil => simp at h
    | cons c rest =>
      simp only [] at h
      by_cases hT : c = 'T'
      · rw [if_pos hT] at h
        simp only [Option.some.injEq, Prod.mk.injEq] at h
        obtain ⟨h4, h5⟩ := h
        subst h4; subst h5; subst hT
        exact ⟨by simp [printF], rfl⟩
      · rw [if_neg hT] at h
        by_cases hF : c = 'F'
        · rw [if_pos hF] at h
          simp only [Option.some.injEq, Prod.mk.injEq] at h
          obtain ⟨h4, h5⟩ := h
          subst h4; subst h5; subst hF
          exact ⟨by simp [printF], rfl⟩
        · rw [if_neg hF] at h; exact Option.noConfusion h

theorem parseF_extmono : ∀ (fuel : Nat) (cs : List Char) (φ : Formula) (r : List Char)
    (fuel2 : Nat) (zs : List Char),
    parseF fuel cs = some (φ, r) → fuel ≤ fuel2 →
    (zs = [] ∨ ∃ t, zs = ')' :: t) →
    parseF fuel2 (cs ++ zs) = some (φ, r ++ zs) := by
  intro fuel
  induction fuel with
  | zero => intro cs φ r fuel2 zs h; exact absurd h (by simp [parseF])
  | succ fuel ih =>
    intro cs φ r fuel2 zs h hle hz
    obtain ⟨f2, rfl⟩ : ∃ f2, fuel2 = f2 + 1 := ⟨fuel2 - 1, by omega⟩
    have hle2 : fuel ≤ f2 := by omega
    have hrec : ∀ cs φ r, parseF fuel cs = some (φ, r) →
        parseF f2 (cs ++ zs) = some (φ, r ++ zs) :=
      fun cs φ r hp => ih cs φ r f2 zs hp hle2 hz
    simp only [parseF] at h ⊢
    cases hA : matchLit kwAnd cs with
    | some cs1 =>
      simp only [hA] at h
      simp only [matchLit_append kwAnd cs cs1 zs hA]
      exact parseBin_ext Formula.and (parseF fuel) (parseF f2) zs hrec cs1 φ r h
    | none =>
    simp only [hA] at h
    simp only [matchLit_none_append kwAnd cs zs (by decide) hz hA]
    cases hO : matchLit kwOr cs with
    | some cs1 =>
      simp only [hO] at h
      simp only [matchLit_append kwOr cs cs1 zs hO]
      exact parseBin_ext Formula.or (parseF fuel) (parseF f2) zs hrec cs1 φ r h
    | none =>
    simp only [hO] at h
    simp only [matchLit_none_append kwOr cs zs (by decide) hz hO]
    cases hI : matchLit kwImplies cs with
    | some cs1 =>
      simp only [hI] at h
      simp only [matchLit_append kwImplies cs cs1 zs hI]
      exact parseBin_ext Formula.implies (parseF fuel) (parseF f2) zs hrec cs1 φ r h
    | none =>
    simp only [hI] at h
    simp only [matchLit_none_append kwImplies cs zs (by decide) hz hI]
    cases hR : matchLit kwRel cs with
    | some cs1 =>
      simp only [hR] at h
      simp only [matchLit_append kwRel cs cs1 zs hR]
      exact parseRel_ext cs1 φ r zs h
    | none =>
    simp only [hR] at h
    simp only [matchLit_none_append kwRel cs zs (by decide) hz hR]
    cases hE : matchLit kwExists cs with
    | some cs1 =>
      simp only [hE] at h
      simp only [matchLit_append kwExists cs cs1 zs hE]
      exact parseQuant_ext Formula.exists_ (parseF fuel) (parseF f2) zs hrec cs1 φ r h
    | none =>
    simp only [hE] at h
    simp only [matchLit_none_append kwExists cs zs (by decide) hz hE]
    cases hFa : matchLit kwForall cs with
    | some cs1 =>
      simp only [hFa] at h
      simp only [matchLit_append kwForall cs cs1 zs hFa]
      exact parseQuant_ext Formula.forall_ (parseF fuel) (parseF f2) zs hrec cs1 φ r h
    | none =>
    simp only [hFa] at h
    simp only [matchLit_none_append kwForall cs zs (by decide) hz hFa]
    cases cs with
    | nil => simp at h
    | cons c rest =>
      simp only [List.cons_append]
      simp only [] at h
      by_cases hT : c = 'T'
      · rw [if_pos hT] at h ⊢
        simp only [Option.some.injEq, Prod.mk.injEq] at h
        obtain ⟨h4, h5⟩ := h
        subst h4; subst h5
        rfl
      · rw [if_neg hT] at h ⊢
        by_cases hF : c = 'F'
        · rw [if_pos hF] at h ⊢
          simp only [Option.some.injEq, Prod.mk.injEq] at h
          obtain ⟨h4, h5⟩ := h
          subst h4; subst h5
          rfl
        · rw [if_neg hF] at h; exact Option.noConfusion h

theorem balancedAux_cons_other (c : Char) (cs : List Char) (d : Nat)
    (h1 : c ≠ '(') (h2 : c ≠ ')') :
    balancedAux (c :: cs) d = balancedAux cs d := by
  rw [balancedAux.eq_def]
  simp only []
  rw [if_neg h1, if_neg h2]

theorem balancedAux_cons_open (cs : List Char) (d : Nat) :
    balancedAux ('(' :: cs) d = balancedAux cs (d + 1) := by
  rw [balancedAux.eq_def]
  simp

theorem balancedAux_cons_close (cs : List Char) (d : Nat) :
    balancedAux (')' :: cs) (d + 1) = balancedAux cs d := by
  rw [balancedAux.eq_def]
  simp

theorem balancedAux_append_noparen : ∀ (l rest : List Char) (d : Nat),
    (∀ c ∈ l, c ≠ '(' ∧ c ≠ ')') →
    balancedAux (l ++ rest) d = balancedAux rest d := by
  intro l
  induction l with
  | nil => intro rest d h; rfl
  | cons c l ih =>
    intro rest d h
    obtain ⟨h1, h2⟩ := h c (by simp)
    rw [List.cons_append, balancedAux_cons_other c _ d h1 h2]
    exact ih rest d (fun c hm => h c (List.mem_cons_of_mem _ hm))

theorem alnum_no_paren (l : List Char) (h : l.all Char.isAlphanum = true) :
    ∀ c ∈ l, c ≠ '(' ∧ c ≠ ')' := by
  intro c hm
  have hc : c.isAlphanum = true := by
    rw [List.all_eq_true] at h
    exact h c hm
  constructor
  · rintro rfl; exact absurd hc (by decide)
  · rintro rfl; exact absurd hc (by decide)

theorem printTerm_balancedAux (t : Term) (h : namesOkT t = true)
    (rest : List Char) (d : Nat) :
    balancedAux (printTerm t ++ rest) d = balancedAux rest d := by
  obtain ⟨n⟩ := t
  have hn := alnum_no_paren n.data (by simpa [namesOkT] using h)
  simp only [printTerm, List.append_assoc]
  rw [balancedAux_append_noparen kwVar _ d (by decide),
      balancedAux_append_noparen n.data _ d hn,
      balancedAux_append_noparen ['"'] _ d (by decide)]

theorem printTerms_balancedAux : ∀ (ts : List Term), ts.all namesOkT = true →
    ∀ (rest : List Char) (d : Nat),
    balancedAux (printTerms ts ++ rest) d = balancedAux rest d := by
  intro ts
  induction ts with
  | nil => intro h rest d; rfl
  | cons t ts ih =>
    intro h rest d
    rw [List.all_cons, Bool.and_eq_true] at h
    obtain ⟨ht, hts⟩ := h
    cases ts with
    | nil => simpa [printTerms] using printTerm_balancedAux t ht rest d
    | cons t2 ts2 =>
      rw [printTerms, List.append_assoc, printTerm_balancedAux t ht _ d,
          List.cons_append,
          balancedAux_cons_other ',' _ d (by decide) (by decide)]
      exact ih hts rest d

theorem printF_balancedAux : ∀ (φ : Formula), namesOk φ = true →
    ∀ (rest : List Char) (d : Nat),
    balancedAux (printF φ ++ rest) d = balancedAux rest d := by
  intro φ
  induction φ with
  | tru =>
    intro h rest d
    simp only [printF, List.singleton_append]
    rw [balancedAux_cons_other 'T' _ d (by decide) (by decide)]
  | fls =>
    intro h rest d
    simp only [printF, List.singleton_append]
    rw [balancedAux_cons_other 'F' _ d (by decide) (by decide)]
  | rel n ts =>
    intro h rest d
    rw [namesOk, Bool.and_eq_true] at h
    obtain ⟨hn, hts⟩ := h
    simp only [printF, kwRel, kwBrk, List.append_assoc, List.cons_append,
      List.nil_append, List.singleton_append]
    rw [balancedAux_cons_other 'R' _ d (by decide) (by decide),
        balancedAux_cons_other 'e' _ d (by decide) (by decide),
        balancedAux_cons_other 'l' _ d (by decide) (by decide),
        balancedAux_cons_other ' ' _ d (by decide) (by decide),
        balancedAux_cons_other '"' _ d (by decide) (by decide),
        balancedAux_append_noparen n.data _ d (alnum_no_paren n.data hn),
        balancedAux_cons_other '"' _ d (by decide) (by decide),
        balancedAux_cons_other ' ' _ d (by decide) (by decide),
        balancedAux_cons_other '[' _ d (by decide) (by decide),
        printTerms_balancedAux ts hts _ d,
        balancedAux_cons_other ']' _ d (by decide) (by decide)]
  | and l r ihl ihr =>
    intro h rest d
    rw [namesOk, Bool.and_eq_true] at h
    obtain ⟨hl, hr⟩ := h
    simp only [printF, kwAnd, kwSep, List.append_assoc, List.cons_append,
      List.nil_append, List.singleton_append]
    rw [balancedAux_cons_other 'A' _ d (by decide) (by decide),
        balancedAux_cons_other 'n' _ d (by decide) (by decide),
        balancedAux_cons_other 'd' _ d (by decide) (by decide),
        balancedAux_cons_other ' ' _ d (by decide) (by decide),
        balancedAux_cons_open, ihl hl _ (d + 1), balancedAux_cons_close,
        balancedAux_cons_other ' ' _ d (by decide) (by decide),
        balancedAux_cons_open, ihr hr _ (d + 1), balancedAux_cons_close]
  | or l r ihl ihr =>
    intro h rest d
    rw [namesOk, Bool.and_eq_true] at h
    obtain ⟨hl, hr⟩ := h
    simp only [printF, kwOr, kwSep, List.append_assoc, List.cons_append,
      List.nil_append, List.singleton_append]
    rw [balancedAux_cons_other 'O' _ d (by decide) (by decide),
        balancedAux_cons_other 'r' _ d (by decide) (by decide),
        balancedAux_cons_other ' ' _ d (by decide) (by decide),
        balancedAux_cons_open, ihl hl _ (d + 1), balancedAux_cons_close,
        balancedAux_cons_other ' ' _ d (by decide) (by decide),
        balancedAux_cons_open, ihr hr _ (d + 1), balancedAux_cons_close]
  | implies l r ihl ihr =>
    intro h rest d
    rw [namesOk, Bool.and_eq_true] at h
    obtain ⟨hl, hr⟩ := h
    simp only [printF, kwImplies, kwSep, List.append_assoc, List.cons_append,
      List.nil_append, List.singleton_append]
    rw [balancedAux_cons_other 'I' _ d (by decide) (by decide),
        balancedAux_cons_other 'm' _ d (by decide) (by decide),
        balancedAux_cons_other 'p' _ d (by decide) (by decide),
        balancedAux_cons_other 'l' _ d (by decide) (by decide),
        balancedAux_cons_other 'i' _ d (by decide) (by decide),
        balancedAux_cons_other 'e' _ d (by decide) (by decide),
        balancedAux_cons_other 's' _ d (by decide) (by decide),
        balancedAux_cons_other ' ' _ d (by decide) (by decide),
        balancedAux_cons_open, ihl hl _ (d + 1), balancedAux_cons_close,
        balancedAux_cons_other ' ' _ d (by decide) (by decide),
        balancedAux_cons_open, ihr hr _ (d + 1), balancedAux_cons_close]
  | exists_ v b ihb =>
    intro h rest d
    rw [namesOk, Bool.and_eq_true] at h
    obtain ⟨hv, hb⟩ := h
    simp only [printF, kwExists, kwBody, List.append_assoc, List.cons_append,
      List.nil_append, List.singleton_append]
    rw [balancedAux_cons_other 'E' _ d (by decide) (by decide),
        balancedAux_cons_other 'x' _ d (by decide) (by decide),
        balancedAux_cons_other 'i' _ d (by decide) (by decide),
        balancedAux_cons_other 's' _ d (by decide) (by decide),
        balancedAux_cons_other 't' _ d (by decide) (by decide),
        balancedAux_cons_other 's' _ d (by decide) (by decide),
        balancedAux_cons_other ' ' _ d (by decide) (by decide),
        balancedAux_cons_other '"' _ d (by decide) (by decide),
        balancedAux_append_noparen v.data _ d (alnum_no_paren v.data hv),
        balancedAux_cons_other '"' _ d (by decide) (by decide),
        balancedAux_cons_other ' ' _ d (by decide) (by decide),
        balancedAux_cons_open, ihb hb _ (d + 1), balancedAux_cons_close]
  | forall_ v b ihb =>
    intro h rest d
    rw [namesOk, Bool.and_eq_true] at h
    obtain ⟨hv, hb⟩ := h
    simp only [printF, kwForall, kwBody, List.append_assoc, List.cons_append,
      List.nil_append, List.singleton_append]
    rw [balancedAux_cons_other 'F' _ d (by decide) (by decide),
        balancedAux_cons_other 'o' _ d (by decide) (by decide),
        balancedAux_cons_other 'r' _ d (by decide) (by decide),
        balancedAux_cons_other 'a' _ d (by decide) (by decide),
        balancedAux_cons_other 'l' _ d (by decide) (by decide),
        balancedAux_cons_other 'l' _ d (by decide) (by decide),
        balancedAux_cons_other ' ' _ d (by decide) (by decide),
        balancedAux_cons_other '"' _ d (by decide) (by decide),
        balancedAux_append_noparen v.data _ d (alnum_no_paren v.data hv),
        balancedAux_cons_other '"' _ d (by decide) (by decide),
        balancedAux_cons_other ' ' _ d (by decide) (by decide),
        balancedAux_cons_open, ihb hb _ (d + 1), balancedAux_cons_close]

theorem parseFO_ok_iff (s : String) (φ : Formula) :
    parseFO s = .ok φ ↔ parseF (s.data.length + 1) s.data = some (φ, []) := by
  simp only [parseFO, Parser.parse, Parser.with_parse_tree, foParser, foEngine,
    foDerivations]
  cases hp : parseF (s.data.length + 1) s.data with
  | none => simp
  | some pr =>
    obtain ⟨ψ, rest⟩ := pr
    cases rest with
    | nil => simp
    | cons c cs => simp

theorem parseFO_cases (s : String) :
    (∃ φ, parseFO s = .ok φ ∧ parseF (s.data.length + 1) s.data = some (φ, []))
    ∨ parseFO s = .error (.inputParse s) := by
  simp only [parseFO, Parser.parse, Parser.with_parse_tree, foParser, foEngine,
    foDerivations]
  cases hp : parseF (s.data.length + 1) s.data with
  | none => right; rfl
  | some pr =>
    obtain ⟨ψ, rest⟩ := pr
    cases rest with
    | nil => exact Or.inl ⟨ψ, rfl, rfl⟩
    | cons c cs => right; rfl

/-! ### Claims settled against the translation of `parser.rs` -/

/-- C1: `Parser::parse` is exactly the two-stage pipeline: when parser
construction fails that error is returned; otherwise the caller receives
the AST conversion applied to the first parse tree the grammar engine
produces — the typed AST when both stages succeed, the conversion's own
error when it fails, and the grammar stage's error when the input has no
derivation. -/
theorem parse_is_conversion_of_first_tree {τ : Type} (p : Parser τ)
    (conv : τ → Except PError Formula) (s : String) :
    (p.grammar.buildOk = false → p.parse conv s = .error .parserBuild)
    ∧ (p.grammar.buildOk = true →
        p.parse conv s =
          match (p.grammar.derivations s).head? with
          | none => .error (.inputParse s)
          | some t => conv t) := by
  constructor
  · intro h
    simp [Parser.parse, Parser.with_parse_tree, h]
  · intro h
    cases hd : (p.grammar.derivations s).head? with
    | none => simp [Parser.parse, Parser.with_parse_tree, h, hd]
    | some t =>
      simp only [Parser.parse, Parser.with_parse_tree, h, hd]

/-- Witness for C1 at the modelled shipped engine and input `T`. -/
theorem parse_is_conversion_of_first_tree_w :
    foParser.parse (fun φ => Except.ok φ) "T" =
      match (foParser.grammar.derivations "T").head? with
      | none => Except.error (PError.inputParse "T")
      | some t => Except.ok t :=
  (parse_is_conversion_of_first_tree foParser (fun φ => Except.ok φ) "T").2 rfl

/-- C2: when parser construction succeeds and the input has at least one
derivation, `with_parse_tree` returns `Ok` of the callback applied to the
first derivation in the order the matching process iterates them; no
ranking or disambiguation is applied. -/
theorem with_parse_tree_applies_f_to_first {τ ρ : Type} (p : Parser τ)
    (s : String) (f : τ → ρ) (t : τ) (ts : List τ)
    (hb : p.grammar.buildOk = true)
    (hd : p.grammar.derivations s = t :: ts) :
    p.with_parse_tree s f = .ok (f t) := by
  simp [Parser.with_parse_tree, hb, hd]

/-- Witness for C2 at the modelled shipped engine and input `T`. -/
theorem with_parse_tree_applies_f_to_first_w :
    foParser.with_parse_tree "T" (fun φ => φ) = Except.ok Formula.tru :=
  with_parse_tree_applies_f_to_first foParser "T" (fun φ => φ)
    Formula.tru [] rfl (by decide)

/-- C3: with a usable parser, an input with zero derivations makes both
`with_parse_tree` and `parse` fail with the input-parse error carrying the
full original input, whose rendered message contains the input text; and
a parser-construction failure is surfaced with its own context message. -/
theorem zero_derivations_error {τ ρ : Type} (p : Parser τ) (s : String)
    (conv : τ → Except PError Formula) (f : τ → ρ) :
    (p.grammar.buildOk = true → p.grammar.derivations s = [] →
      p.with_parse_tree s f = .error (.inputParse s)
      ∧ p.parse conv s = .error (.inputParse s)
      ∧ (PError.inputParse s).message = "Grammar could not parse input: " ++ s
      ∧ s.data <:+ ((PError.inputParse s).message).data)
    ∧ (p.grammar.buildOk = false →
      p.with_parse_tree s f = .error .parserBuild
      ∧ p.parse conv s = .error .parserBuild) := by
  refine ⟨fun hb hd => ⟨?_, ?_, rfl, ?_⟩, fun hb => ⟨?_, ?_⟩⟩
  · simp [Parser.with_parse_tree, hb, hd]
  · simp [Parser.parse, Parser.with_parse_tree, hb, hd]
  · exact ⟨"Grammar could not parse input: ".data, (String.data_append _ _).symm⟩
  · simp [Parser.with_parse_tree, hb]
  · simp [Parser.parse, Parser.with_parse_tree, hb]

/-- Witness for C3 at the modelled shipped engine and the underivable
input `(`. -/
theorem zero_derivations_error_w :
    foParser.with_parse_tree "(" (fun φ => φ) =
        Except.error (PError.inputParse "(")
      ∧ foParser.parse (fun φ => Except.ok φ) "(" =
        Except.error (PError.inputParse "(")
      ∧ (PError.inputParse "(").message = "Grammar could not parse input: " ++ "("
      ∧ "(".data <:+ ((PError.inputParse "(").message).data :=
  (zero_derivations_error foParser "(" (fun φ => Except.ok φ) (fun φ => φ)).1
    rfl (by decide)

/-- C4: the shipped grammar always compiles — `Parser::new` on the
modelled shipped engine succeeds — and a grammar-compilation failure can
never be the outcome of a per-input call: `with_parse_tree` never returns
it, and `parse` never returns it as long as the AST conversion does not
produce one itself. -/
theorem grammar_always_compiles {τ ρ : Type} (p : Parser τ) (s : String)
    (f : τ → ρ) (conv : τ → Except PError Formula) :
    Parser.new foEngine = .ok foParser
    ∧ p.with_parse_tree s f ≠ .error .grammarCompile
    ∧ ((∀ t, conv t ≠ .error .grammarCompile) →
        p.parse conv s ≠ .error .grammarCompile) := by
  refine ⟨rfl, ?_, ?_⟩
  · cases hb : p.grammar.buildOk with
    | false => simp [Parser.with_parse_tree, hb]
    | true =>
      cases hd : (p.grammar.derivations s).head? with
      | none => simp [Parser.with_parse_tree, hb, hd]
      | some t => simp [Parser.with_parse_tree, hb, hd]
  · intro hconv
    cases hb : p.grammar.buildOk with
    | false => simp [Parser.parse, Parser.with_parse_tree, hb]
    | true =>
      cases hd : (p.grammar.derivations s).head? with
      | none => simp [Parser.parse, Parser.with_parse_tree, hb, hd]
      | some t =>
        simp only [Parser.parse, Parser.with_parse_tree, hb, hd]
        exact hconv t

/-- Witness for C4 at the modelled shipped engine and input `T`. -/
theorem grammar_always_compiles_w :
    Parser.new foEngine = Except.ok foParser
    ∧ foParser.with_parse_tree "T" (fun φ => φ) ≠
        Except.error PError.grammarCompile :=
  ⟨(grammar_always_compiles foParser "T" (fun φ : Formula => φ)
      (fun φ => Except.ok φ)).1,
   (grammar_always_compiles foParser "T" (fun φ : Formula => φ)
      (fun φ => Except.ok φ)).2.1⟩

/-- C5: parsing is deterministic: two calls of `parse` on the same parser
and the same input return structurally equal results. -/
theorem parse_deterministic {τ : Type} (p : Parser τ)
    (conv : τ → Except PError Formula) (s : String)
    (r₁ r₂ : Except PError Formula)
    (h₁ : p.parse conv s = r₁) (h₂ : p.parse conv s = r₂) : r₁ = r₂ :=
  h₁.symm.trans h₂

/-- Witness for C5 at the modelled shipped engine and input `T`. -/
theorem parse_deterministic_w :
    (Except.ok Formula.tru : Except PError Formula) = Except.ok Formula.tru :=
  parse_deterministic foParser (fun φ => Except.ok φ) "T"
    (Except.ok Formula.tru) (Except.ok Formula.tru) rfl rfl

/-- C6: the engine is stateless across calls beyond the immutable
compiled grammar: both calls leave the parser's state unchanged whatever
the outcome, and a subsequent parse from the returned state has the same
outcome as a parse from the original state. -/
theorem engine_stateless {τ ρ : Type} (p : Parser τ)
    (conv : τ → Except PError Formula) (s₁ s₂ : String) (f : τ → ρ) :
    (p.with_parse_tree_call s₁ f).2 = p
    ∧ (p.parse_call conv s₁).2 = p
    ∧ ((p.parse_call conv s₁).2.parse conv s₂ = p.parse conv s₂)
    ∧ ((p.with_parse_tree_call s₁ f).2.parse conv s₂ = p.parse conv s₂) :=
  ⟨rfl, rfl, rfl, rfl⟩

/-- C10: with a usable parser and a derivable input, `with_parse_tree`
returns `Ok` of the callback's result whatever value the callback
returns, and `parse` forwards the conversion's own result — conversion
failures reach the caller only through the flattening in `parse`. -/
theorem with_parse_tree_wraps_callback {τ ρ : Type} (p : Parser τ)
    (s : String) (f : τ → ρ) (t : τ) (ts : List τ)
    (hb : p.grammar.buildOk = true)
    (hd : p.grammar.derivations s = t :: ts) :
    p.with_parse_tree s f = .ok (f t)
    ∧ ∀ conv : τ → Except PError Formula, p.parse conv s = conv t := by
  constructor
  · simp [Parser.with_parse_tree, hb, hd]
  · intro conv
    simp only [Parser.parse, Parser.with_parse_tree, hb, hd, List.head?]

/-- Witness for C10 at the modelled shipped engine and input `T`, with a
callback whose returned value is itself an error value. -/
theorem with_parse_tree_wraps_callback_w :
    foParser.with_parse_tree "T"
        (fun _ => (Except.error (PError.conversion "boom") : Except PError Formula)) =
      Except.ok (Except.error (PError.conversion "boom")) :=
  (with_parse_tree_wraps_callback foParser "T"
      (fun _ => (Except.error (PError.conversion "boom") : Except PError Formula))
      Formula.tru [] rfl (by decide)).1

/-- C7: the seven literal test inputs parse to exactly the expected
formula shapes. -/
theorem good_inputs_are_parsed :
    parseFO "T" = .ok .tru
    ∧ parseFO "And (T) (T)" = .ok (.and .tru .tru)
    ∧ parseFO "Exists \"x\" (T)" = .ok (.exists_ "x" .tru)
    ∧ parseFO "Rel \"D\" [Var \"x\"]" = .ok (.rel "D" [.var "x"])
    ∧ parseFO "Forall \"y\" (F)" = .ok (.forall_ "y" .fls)
    ∧ parseFO "Forall \"y\" (Rel \"D\" [Var \"y\"])" =
        .ok (.forall_ "y" (.rel "D" [.var "y"]))
    ∧ parseFO "Exists \"x\" (Implies (Rel \"D\" [Var \"x\"]) (Forall \"y\" (Rel \"D\" [Var \"y\"])))" =
        .ok (.exists_ "x" (.implies (.rel "D" [.var "x"])
              (.forall_ "y" (.rel "D" [.var "y"])))) :=
  ⟨rfl, rfl, rfl, rfl, rfl, rfl, rfl⟩

/-- C8: the parser is total on every input (each model function is a
total Lean function, so no input can make it hang or panic), and
malformed inputs fail with the input-parse error: every input whose
parentheses are unbalanced is rejected — a successful parse reconstructs
the input as the canonical print of the resulting formula, which is
balanced — and so are the literal inputs with an unknown connective
keyword and with unquoted relation and variable names. -/
theorem malformed_inputs_rejected (s : String) (h : balanced s = false) :
    parseFO s = .error (.inputParse s)
    ∧ parseFO "Xor (T) (T)" = .error (.inputParse "Xor (T) (T)")
    ∧ parseFO "Rel D [Var x]" = .error (.inputParse "Rel D [Var x]") := by
  refine ⟨?_, rfl, rfl⟩
  rcases parseFO_cases s with ⟨φ, hok, hp⟩ | herr
  · exfalso
    obtain ⟨hprint, hnames⟩ := parseF_sound _ _ _ _ hp
    have hbal : balancedAux s.data 0 = true := by
      rw [hprint, printF_balancedAux φ hnames [] 0]
      rfl
    rw [balanced, hbal] at h
    exact Bool.noConfusion h
  · exact herr

/-- Witness for C8 at the unbalanced input `And (T (T)`. -/
theorem malformed_inputs_rejected_w :
    parseFO "And (T (T)" = Except.error (PError.inputParse "And (T (T)")
    ∧ parseFO "Xor (T) (T)" = Except.error (PError.inputParse "Xor (T) (T)")
    ∧ parseFO "Rel D [Var x]" = Except.error (PError.inputParse "Rel D [Var x]") :=
  malformed_inputs_rejected "And (T (T)" (by decide)

/-- C9: parsing is compositional under the And connective: whenever the
strings `a` and `b` parse, the composed string parses to the conjunction
of their parses. -/
theorem and_compositional (a b : String) (φa φb : Formula)
    (ha : parseFO a = .ok φa) (hb : parseFO b = .ok φb) :
    parseFO ("And (" ++ a ++ ") (" ++ b ++ ")") = .ok (.and φa φb) := by
  have hpa := (parseFO_ok_iff a φa).mp ha
  have hpb := (parseFO_ok_iff b φb).mp hb
  apply (parseFO_ok_iff _ _).mpr
  have hdata : ("And (" ++ a ++ ") (" ++ b ++ ")").data
      = kwAnd ++ (a.data ++ (kwSep ++ (b.data ++ [')']))) := by
    simp only [String.data_append, List.append_assoc]
    rfl
  rw [hdata]
  set X := a.data ++ (kwSep ++ (b.data ++ [')'])) with hX
  have hred : parseF ((kwAnd ++ X).length + 1) (kwAnd ++ X)
      = parseBin Formula.and (parseF ((kwAnd ++ X).length)) X := rfl
  rw [hred]
  have hstep1 := parseF_extmono (a.data.length + 1) a.data φa []
    ((kwAnd ++ X).length) (kwSep ++ (b.data ++ [')'])) hpa
    (by rw [hX]
        simp only [kwAnd, kwSep, List.length_append, List.length_cons,
          List.length_nil]
        omega)
    (Or.inr ⟨' ' :: '(' :: (b.data ++ [')']), rfl⟩)
  rw [List.nil_append, ← hX] at hstep1
  have hstep2 := parseF_extmono (b.data.length + 1) b.data φb []
    ((kwAnd ++ X).length) [')'] hpb
    (by rw [hX]
        simp only [kwAnd, kwSep, List.length_append, List.length_cons,
          List.length_nil]
        omega)
    (Or.inr ⟨[], rfl⟩)
  rw [List.nil_append] at hstep2
  simp only [parseBin, hstep1, matchLit_self, hstep2]
  simp

/-- Witness for C9 at the concrete operands `T` and `F`. -/
theorem and_compositional_w :
    parseFO ("And (" ++ "T" ++ ") (" ++ "F" ++ ")") =
      Except.ok (Formula.and Formula.tru Formula.fls) :=
  and_compositional "T" "F" Formula.tru Formula.fls rfl rfl

end FOProver
